import Mathlib

/-!
Verification development for the SizeCeph_Actual erasure-code plugin
(`src/erasure-code/sizeceph_actual/ErasureCodeSizeCephActual.{h,cc}`).

The plugin is an orchestration layer over an opaque external codec library
(`size_split` / `size_restore` / `size_can_get_restore_fn`).  We embed the
orchestration layer shallowly:

* byte buffers (`ceph::bufferlist` contents) are lists of byte values;
* `shard_id_set` values are lists of shard identifiers in their iteration
  (ascending) order; `shard_id_map<bufferlist>` values are association lists of
  `(shard id, buffer)` entries in ascending key order;
* the external codec is an opaque record of functions (`Codec`), and the
  orchestrator's results carry the list of codec invocations it made, so that
  "the codec is never invoked" is expressible;
* the C++ `unsigned int` arithmetic of the plugin is `Nat` arithmetic with an
  explicit `% 2 ^ 32` where the source can wrap, and the C++ conversion of the
  `int chunk_size` argument to `unsigned int` is `Int.emod` by `2 ^ 32`.

Library loading (`load_sizeceph_actual_library`) is environment I/O and is
modelled as always succeeding; every behaviour in the claims either precedes
the load (the availability gate) or follows a successful load.
-/

namespace SizeCephActual

/-- A byte buffer (contents of a `ceph::bufferlist`) as the list of its byte
values. -/
abbrev ByteBuf := List Nat

/-- `SIZECEPH_ACTUAL_K`: number of data chunks (header constant). -/
def SIZECEPH_ACTUAL_K : Nat := 4

/-- `SIZECEPH_ACTUAL_M`: number of parity chunks (header constant). -/
def SIZECEPH_ACTUAL_M : Nat := 5

/-- `SIZECEPH_ACTUAL_N`: total number of chunks (header constant). -/
def SIZECEPH_ACTUAL_N : Nat := 9

/-- `SIZECEPH_ACTUAL_MIN_OSDS`: minimum number of available shards a decode
requires (header constant). -/
def SIZECEPH_ACTUAL_MIN_OSDS : Nat := 6

/-- `SIZECEPH_ACTUAL_ALIGNMENT`: byte alignment of the transform (header
constant). -/
def SIZECEPH_ACTUAL_ALIGNMENT : Nat := 4

/-- Modulus of the C++ `unsigned int` arithmetic used by the plugin. -/
def U32 : Nat := 2 ^ 32

/-- Modelled from the spec: `round_up_to` from `include/intarith.h` is used by
`get_chunk_size` but its definition is not part of the provided sources.  The
spec (§4.1) describes it as padding the width "up to the next multiple of
`k_alignment` (no-op if already aligned, including `stripe_width = 0`)". -/
def round_up_to (n d : Nat) : Nat :=
  if n % d = 0 then n else n + d - n % d

/-- `ErasureCodeSizeCephActual::get_chunk_size`: pad the stripe width to a
multiple of `k_alignment = SIZECEPH_ACTUAL_K * SIZECEPH_ACTUAL_ALIGNMENT`
(16 bytes) and divide by `SIZECEPH_ACTUAL_K`. -/
def get_chunk_size (stripe_width : Nat) : Nat :=
  round_up_to stripe_width (SIZECEPH_ACTUAL_K * SIZECEPH_ACTUAL_ALIGNMENT) / SIZECEPH_ACTUAL_K

/-- `ErasureCodeSizeCephActual::minimum_to_decode` (modern overload):
reject fewer than `SIZECEPH_ACTUAL_MIN_OSDS` available shards with `-EIO`,
otherwise select the first `SIZECEPH_ACTUAL_MIN_OSDS` identifiers in the
iteration (ascending) order of `available`.  The `want_to_read` argument is
not consulted. -/
def minimum_to_decode (want_to_read available : List Int) : Except Int (List Int) :=
  if available.length < SIZECEPH_ACTUAL_MIN_OSDS then
    Except.error (-5)
  else
    Except.ok (available.take SIZECEPH_ACTUAL_MIN_OSDS)

/-- `ErasureCodeSizeCephActual::is_safe_to_decode`: the availability gate; a
pure cardinality check on `available`. -/
def is_safe_to_decode (available want_to_read : List Int) : Bool :=
  if available.length < SIZECEPH_ACTUAL_MIN_OSDS then false
  else if available.length < SIZECEPH_ACTUAL_K then false
  else true

/-- One invocation of the external SizeCeph_Actual library recorded by the
orchestrator. -/
inductive CodecCall where
  | splitCall
  | canRestoreCall
  | restoreCall
deriving DecidableEq

/-- The opaque external codec (`size_split`, `size_can_get_restore_fn`,
`size_restore`).  `restoreByte inputs len i` is the byte the restore call
writes at position `i` of its `len`-byte output buffer, and `restoreStatus`
its return code; `splitByte input id j` is the byte `size_split` writes at
position `j` of output chunk `id`. -/
structure Codec where
  canRestore : List (Option ByteBuf) → Bool
  restoreStatus : List (Option ByteBuf) → Nat → Int
  restoreByte : List (Option ByteBuf) → Nat → Nat → Nat
  splitByte : ByteBuf → Nat → Nat → Nat

/-- Result of `ErasureCodeSizeCephActual::encode`: the returned status, the
contents of `*encoded`, and the codec invocations made. -/
structure EncodeResult where
  status : Int
  encoded : List (Int × ByteBuf)
  calls : List CodecCall
deriving DecidableEq

/-- Result of `ErasureCodeSizeCephActual::decode`: the returned status, the
contents of `*decoded` at return (a partial map), and the codec invocations
made. -/
structure DecodeResult where
  status : Int
  decoded : List (Int × ByteBuf)
  calls : List CodecCall
deriving DecidableEq

/-- The output chunk `size_split` writes for shard `id` into its
`chunkSize`-byte output buffer. -/
def encodeChunk (codec : Codec) (input : ByteBuf) (chunkSize : Nat) (id : Nat) : ByteBuf :=
  (List.range chunkSize).map (codec.splitByte input id)

/-- The request validation performed by `encode` before any buffer work: all
`SIZECEPH_ACTUAL_N` chunks must be requested and every identifier must be in
range. -/
def encodeValidate (want_to_encode : List Int) : Bool :=
  decide (want_to_encode.length = SIZECEPH_ACTUAL_N) &&
    want_to_encode.all (fun id => decide (0 ≤ id) && decide (id < 9))

/-- `ErasureCodeSizeCephActual::encode` (modern overload).  Mirrors the source
order: request-size check, per-identifier range check, empty-input
short-circuit, input alignment check, then buffer setup and the `size_split`
call. -/
def encode (codec : Codec) (want_to_encode : List Int) (inbuf : ByteBuf) : EncodeResult :=
  if want_to_encode.length ≠ SIZECEPH_ACTUAL_N then
    ⟨-22, [], []⟩
  else if ¬ (∀ id ∈ want_to_encode, 0 ≤ id ∧ id < 9) then
    ⟨-22, [], []⟩
  else if inbuf.length = 0 then
    ⟨0, want_to_encode.map (fun id => (id, ([] : ByteBuf))), []⟩
  else if inbuf.length % SIZECEPH_ACTUAL_ALIGNMENT ≠ 0 then
    ⟨-22, [], []⟩
  else
    ⟨0,
      want_to_encode.map
        (fun id => (id, encodeChunk codec inbuf (get_chunk_size inbuf.length) id.toNat)),
      [CodecCall.splitCall]⟩

/-- The `shard_id_set available` that `decode` builds from the keys of the
`chunks` map (duplicate keys cannot occur in a map; `dedup` mirrors the set
insert). -/
def availableOf (chunks : List (Int × ByteBuf)) : List Int :=
  (chunks.map Prod.fst).dedup

/-- Chunk-size resolution in `decode`: the `int chunk_size` argument is first
converted to `unsigned int`; only when that conversion yields `0` and the map
is non-empty is the size inferred from the first present chunk's length. -/
def effectiveChunkSize (chunks : List (Int × ByteBuf)) (declared : Int) : Nat :=
  match chunks with
  | [] => (declared % (U32 : Int)).toNat
  | c :: _ =>
    if (declared % (U32 : Int)).toNat = 0 then c.2.length
    else (declared % (U32 : Int)).toNat

/-- The sparse `SIZECEPH_ACTUAL_N`-slot input array `decode` hands to the
codec: slot `i` holds the chunk keyed by `i`, and entries whose key is not a
valid slot index (the source casts the id to `unsigned` and compares against
`SIZECEPH_ACTUAL_N`) are skipped. -/
def assembleInputs (chunks : List (Int × ByteBuf)) : List (Option ByteBuf) :=
  (List.range SIZECEPH_ACTUAL_N).map
    (fun i : Nat => (chunks.find? (fun p => p.1 == (i : Int))).map Prod.snd)

/-- `original_data_size = effective_chunk_size * SIZECEPH_ACTUAL_K` in
`unsigned int` arithmetic. -/
def originalDataSize (chunks : List (Int × ByteBuf)) (declared : Int) : Nat :=
  effectiveChunkSize chunks declared * SIZECEPH_ACTUAL_K % U32

/-- The contents of the `original_data_size`-byte buffer after the
`size_restore` call. -/
def recoveredBuffer (codec : Codec) (inputs : List (Option ByteBuf)) (size : Nat) : ByteBuf :=
  (List.range size).map (codec.restoreByte inputs size)

/-- Modelled from the spec: `ceph::bufferlist::substr_of` (from
`include/buffer.h`, not part of the provided sources) extracts the byte range
`[off, off + len)`; the spec (§4.5) describes the extraction as taking "this
shard's slice of the recovered buffer", and a range that is not a slice of the
buffer cannot be produced (the bufferlist raises an out-of-range error, which
we model as `none`). -/
def substr_of (buf : ByteBuf) (off len : Nat) : Option ByteBuf :=
  if off + len ≤ buf.length then some ((buf.drop off).take len) else none

/-- The slice of the recovered buffer that `decode` returns for data-role
shard `id`: offset `id * per_chunk` and length `per_chunk`, except that the
last data shard takes `original_data_size - start_offset` (computed in
`unsigned int` arithmetic, hence the explicit wrap). -/
def dataSlice (buf : ByteBuf) (ods : Nat) (id : Nat) : Option ByteBuf :=
  substr_of buf (id * get_chunk_size ods)
    (if id = SIZECEPH_ACTUAL_K - 1
     then (ods + U32 - id * get_chunk_size ods) % U32
     else get_chunk_size ods)

/-- The `cs`-byte slice of a buffer at chunk index `i` (offset `i * cs`). -/
def sliceAt (buf : ByteBuf) (cs i : Nat) : ByteBuf :=
  (buf.drop (i * cs)).take cs

/-- The per-shard reconciliation loop of `decode` over `want_to_read` (in
iteration order): an identifier outside the valid range aborts with `-EINVAL`
keeping the entries accumulated so far; a data-role identifier contributes its
slice of the recovered buffer; a coding-role identifier is skipped.  `none`
models the bufferlist out-of-range error escaping the loop. -/
def reconcile (buf : ByteBuf) (ods : Nat) :
    List Int → List (Int × ByteBuf) → Option (Int × List (Int × ByteBuf))
  | [], acc => some (0, acc)
  | id :: rest, acc =>
    if ¬ (0 ≤ id ∧ id < 9) then some (-22, acc)
    else if id < 4 then
      match dataSlice buf ods id.toNat with
      | none => none
      | some sl => reconcile buf ods rest (acc ++ [(id, sl)])
    else reconcile buf ods rest acc

/-- `ErasureCodeSizeCephActual::decode` (modern overload).  Mirrors the source
order: availability gate (`is_safe_to_decode`), the (unreachable) repeated
cardinality check, chunk-size resolution, input assembly,
`size_can_get_restore_fn`, `size_restore`, then per-shard reconciliation.
`none` models the bufferlist out-of-range error escaping `decode`. -/
def decode (codec : Codec) (want_to_read : List Int) (chunks : List (Int × ByteBuf))
    (declared : Int) : Option DecodeResult :=
  if is_safe_to_decode (availableOf chunks) want_to_read = false then
    some ⟨-5, [], []⟩
  else if (availableOf chunks).length < SIZECEPH_ACTUAL_MIN_OSDS then
    some ⟨-2, [], []⟩
  else if effectiveChunkSize chunks declared = 0 then
    some ⟨-22, [], []⟩
  else if codec.canRestore (assembleInputs chunks) = false then
    some ⟨-95, [], [CodecCall.canRestoreCall]⟩
  else if codec.restoreStatus (assembleInputs chunks) (originalDataSize chunks declared) ≠ 0 then
    some ⟨-5, [], [CodecCall.canRestoreCall, CodecCall.restoreCall]⟩
  else
    match reconcile
        (recoveredBuffer codec (assembleInputs chunks) (originalDataSize chunks declared))
        (originalDataSize chunks declared) want_to_read [] with
    | none => none
    | some (st, dec) => some ⟨st, dec, [CodecCall.canRestoreCall, CodecCall.restoreCall]⟩

/-- The `int chunk_size` that `decode_concat` computes from the first
available chunk (`0` when the map is empty). -/
def inferredChunkSize (chunks : List (Int × ByteBuf)) : Nat :=
  match chunks with
  | [] => 0
  | c :: _ => c.2.length

/-- A zero-filled buffer of `n` bytes (`bufferlist::append_zero`). -/
def zeroBuf (n : Nat) : ByteBuf := List.replicate n 0

/-- The concatenation loop of `decode_concat`: append each requested shard's
decoded buffer in request order, substituting a zero-filled buffer of
`chunk_size` bytes for a shard absent from the decoded map. -/
def concatLoop (decoded : List (Int × ByteBuf)) (cs : Nat) :
    List Int → ByteBuf → ByteBuf
  | [], acc => acc
  | id :: rest, acc =>
    match decoded.find? (fun p => p.1 == id) with
    | some p => concatLoop decoded cs rest (acc ++ p.2)
    | none => concatLoop decoded cs rest (acc ++ zeroBuf cs)

/-- `ErasureCodeSizeCephActual::decode_concat` (the overload taking
`want_to_read`): infer the chunk size from the first available chunk, run
`decode`, and on success concatenate the requested shards in request order. -/
def decode_concat (codec : Codec) (want_to_read : List Int)
    (chunks : List (Int × ByteBuf)) : Option (Int × ByteBuf) :=
  match decode codec want_to_read chunks ((inferredChunkSize chunks : Nat) : Int) with
  | none => none
  | some r =>
    if r.status = 0 then
      some (r.status, concatLoop r.decoded (inferredChunkSize chunks) want_to_read [])
    else
      some (r.status, [])

/-- The list `[a, a+1, …, a+n-1]`, used to characterise sorted in-range shard
sets. -/
def intRangeList (a : Int) : Nat → List Int
  | 0 => []
  | n + 1 => a :: intRangeList (a + 1) n

/-- A concrete codec used to instantiate the theorems on concrete inputs. -/
def testCodec : Codec where
  canRestore := fun _ => true
  restoreStatus := fun _ _ => 0
  restoreByte := fun _ _ i => i % 256
  splitByte := fun _ i j => (i + j) % 256

/-- A concrete 4-byte chunk. -/
def testBuf : ByteBuf := [0, 0, 0, 0]

/-- A concrete available-chunks map with the six shards `{0,1,2,3,4,5}`. -/
def testChunks : List (Int × ByteBuf) :=
  [(0, testBuf), (1, testBuf), (2, testBuf), (3, testBuf), (4, testBuf), (5, testBuf)]

/-! ### Arithmetic facts about the alignment calculator -/

theorem get_chunk_size_four_mul (w : Nat) :
    4 * get_chunk_size w = round_up_to w 16 := by
  unfold get_chunk_size round_up_to SIZECEPH_ACTUAL_K SIZECEPH_ACTUAL_ALIGNMENT
  split <;> omega

theorem get_chunk_size_dvd_four (w : Nat) : 4 ∣ get_chunk_size w := by
  unfold get_chunk_size round_up_to SIZECEPH_ACTUAL_K SIZECEPH_ACTUAL_ALIGNMENT
  split <;> omega

theorem get_chunk_size_of_aligned (x : Nat) (h : 16 ∣ x) :
    get_chunk_size x = x / 4 := by
  unfold get_chunk_size round_up_to SIZECEPH_ACTUAL_K SIZECEPH_ACTUAL_ALIGNMENT
  split <;> omega

/-! ### Facts about the per-shard reconciliation loop -/

theorem reconcile_extends (buf : ByteBuf) (ods : Nat) :
    ∀ (want : List Int) (acc : List (Int × ByteBuf)) (st : Int)
      (dec : List (Int × ByteBuf)),
      reconcile buf ods want acc = some (st, dec) →
      ∃ t, dec = acc ++ t := by
  intro want
  induction want with
  | nil =>
    intro acc st dec h
    simp only [reconcile, Option.some.injEq, Prod.mk.injEq] at h
    exact ⟨[], by simp [h.2.symm]⟩
  | cons id rest ih =>
    intro acc st dec h
    simp only [reconcile] at h
    split at h
    · simp only [Option.some.injEq, Prod.mk.injEq] at h
      exact ⟨[], by simp [h.2.symm]⟩
    · split at h
      · split at h
        · exact absurd h (by simp)
        · rename_i sl hsl
          obtain ⟨t, ht⟩ := ih _ _ _ h
          exact ⟨(id, sl) :: t, by simp [ht]⟩
      · exact ih _ _ _ h

theorem reconcile_mem (buf : ByteBuf) (ods : Nat) :
    ∀ (want : List Int) (acc : List (Int × ByteBuf)) (st : Int)
      (dec : List (Int × ByteBuf)),
      reconcile buf ods want acc = some (st, dec) →
      ∀ p ∈ dec, p ∈ acc ∨
        (p.1 ∈ want ∧ 0 ≤ p.1 ∧ p.1 < 4 ∧ dataSlice buf ods p.1.toNat = some p.2) := by
  intro want
  induction want with
  | nil =>
    intro acc st dec h p hp
    simp only [reconcile, Option.some.injEq, Prod.mk.injEq] at h
    exact Or.inl (h.2 ▸ hp)
  | cons id rest ih =>
    intro acc st dec h p hp
    simp only [reconcile] at h
    split at h
    · simp only [Option.some.injEq, Prod.mk.injEq] at h
      exact Or.inl (h.2 ▸ hp)
    · rename_i hrange
      push_neg at hrange
      split at h
      · rename_i hlt4
        split at h
        · exact absurd h (by simp)
        · rename_i sl hsl
          rcases ih _ _ _ h p hp with hacc | hrest
          · rcases List.mem_append.mp hacc with h1 | h2
            · exact Or.inl h1
            · simp only [List.mem_singleton] at h2
              subst h2
              exact Or.inr ⟨List.mem_cons_self _ _, hrange.1, hlt4, hsl⟩
          · exact Or.inr ⟨List.mem_cons_of_mem _ hrest.1, hrest.2⟩
      · rcases ih _ _ _ h p hp with hacc | hrest
        · exact Or.inl hacc
        · exact Or.inr ⟨List.mem_cons_of_mem _ hrest.1, hrest.2⟩

theorem reconcile_keys (buf : ByteBuf) (ods : Nat) :
    ∀ (want : List Int) (acc : List (Int × ByteBuf)) (dec : List (Int × ByteBuf)),
      reconcile buf ods want acc = some (0, dec) →
      dec.map Prod.fst =
        acc.map Prod.fst ++ want.filter (fun i => decide (0 ≤ i) && decide (i < 4)) := by
  intro want
  induction want with
  | nil =>
    intro acc dec h
    simp only [reconcile, Option.some.injEq, Prod.mk.injEq] at h
    simp [h.2.symm]
  | cons id rest ih =>
    intro acc dec h
    simp only [reconcile] at h
    split at h
    · simp only [Option.some.injEq, Prod.mk.injEq] at h
      exact absurd h.1.symm (by norm_num)
    · rename_i hrange
      push_neg at hrange
      split at h
      · rename_i hlt4
        split at h
        · exact absurd h (by simp)
        · have := ih _ _ h
          rw [this]
          have hid : (decide (0 ≤ id) && decide (id < 4)) = true := by
            simp [hrange.1, hlt4]
          simp [List.filter_cons, hid]
      · rename_i hlt4
        have := ih _ _ h
        rw [this]
        have hid : (decide (0 ≤ id) && decide (id < 4)) = false := by
          simp [decide_eq_false hlt4]
        simp [List.filter_cons, hid]

theorem reconcile_err_mem (buf : ByteBuf) (ods : Nat) :
    ∀ (want : List Int) (acc : List (Int × ByteBuf)) (dec : List (Int × ByteBuf)),
      reconcile buf ods want acc = some (-22, dec) →
      ∃ i ∈ want, ¬ (0 ≤ i ∧ i < 9) := by
  intro want
  induction want with
  | nil =>
    intro acc dec h
    simp only [reconcile, Option.some.injEq, Prod.mk.injEq] at h
    exact absurd h.1 (by norm_num)
  | cons id rest ih =>
    intro acc dec h
    simp only [reconcile] at h
    split at h
    · rename_i hrange
      exact ⟨id, List.mem_cons_self _ _, hrange⟩
    · split at h
      · split at h
        · exact absurd h (by simp)
        · obtain ⟨i, hi, hni⟩ := ih _ _ h
          exact ⟨i, List.mem_cons_of_mem _ hi, hni⟩
      · obtain ⟨i, hi, hni⟩ := ih _ _ h
        exact ⟨i, List.mem_cons_of_mem _ hi, hni⟩

theorem reconcile_err_data_entries (buf : ByteBuf) (ods : Nat) :
    ∀ (want : List Int) (acc : List (Int × ByteBuf)) (dec : List (Int × ByteBuf)),
      want.Pairwise (· < ·) →
      (∀ i ∈ want, 0 ≤ i) →
      reconcile buf ods want acc = some (-22, dec) →
      ∀ i ∈ want, i < 4 → ∃ b, (i, b) ∈ dec := by
  intro want
  induction want with
  | nil =>
    intro acc dec _ _ h
    simp only [reconcile, Option.some.injEq, Prod.mk.injEq] at h
    exact absurd h.1 (by norm_num)
  | cons id rest ih =>
    intro acc dec hsort hnn h
    have hid0 : 0 ≤ id := hnn id (List.mem_cons_self _ _)
    have hrest_gt : ∀ i ∈ rest, id < i := (List.pairwise_cons.mp hsort).1
    simp only [reconcile] at h
    split at h
    · rename_i hrange
      push_neg at hrange
      have hid9 : 9 ≤ id := hrange hid0
      intro i hi hi4
      rcases List.mem_cons.mp hi with rfl | hi'
      · omega
      · exact absurd (hrest_gt i hi') (by omega)
    · split at h
      · split at h
        · exact absurd h (by simp)
        · rename_i sl hsl
          intro i hi hi4
          rcases List.mem_cons.mp hi with rfl | hi'
          · obtain ⟨t, ht⟩ := reconcile_extends buf ods rest _ _ _ h
            exact ⟨sl, by simp [ht]⟩
          · exact ih _ _ (List.pairwise_cons.mp hsort).2
              (fun j hj => hnn j (List.mem_cons_of_mem _ hj)) h i hi' hi4
      · intro i hi hi4
        rcases List.mem_cons.mp hi with rfl | hi'
        · rename_i hrange hlt4
          omega
        · exact ih _ _ (List.pairwise_cons.mp hsort).2
            (fun j hj => hnn j (List.mem_cons_of_mem _ hj)) h i hi' hi4

/-! ### Inversion of the decode state machine -/

theorem decode_branches (codec : Codec) (want : List Int)
    (chunks : List (Int × ByteBuf)) (declared : Int) (r : DecodeResult)
    (h : decode codec want chunks declared = some r) :
    r = ⟨-5, [], []⟩ ∨
    r = ⟨-2, [], []⟩ ∨
    (r = ⟨-22, [], []⟩ ∧ effectiveChunkSize chunks declared = 0) ∨
    r = ⟨-95, [], [CodecCall.canRestoreCall]⟩ ∨
    r = ⟨-5, [], [CodecCall.canRestoreCall, CodecCall.restoreCall]⟩ ∨
    (∃ st dec,
      reconcile (recoveredBuffer codec (assembleInputs chunks) (originalDataSize chunks declared))
        (originalDataSize chunks declared) want [] = some (st, dec) ∧
      r = ⟨st, dec, [CodecCall.canRestoreCall, CodecCall.restoreCall]⟩) := by
  unfold decode at h
  split at h
  · exact Or.inl (Option.some.injEq _ _ ▸ h).symm
  · split at h
    · exact Or.inr (Or.inl (Option.some.injEq _ _ ▸ h).symm)
    · split at h
      · rename_i he
        exact Or.inr (Or.inr (Or.inl ⟨(Option.some.injEq _ _ ▸ h).symm, he⟩))
      · split at h
        · exact Or.inr (Or.inr (Or.inr (Or.inl (Option.some.injEq _ _ ▸ h).symm)))
        · split at h
          · exact Or.inr (Or.inr (Or.inr (Or.inr (Or.inl
              (Option.some.injEq _ _ ▸ h).symm))))
          · split at h
            · exact absurd h (by simp)
            · rename_i st dec heq
              exact Or.inr (Or.inr (Or.inr (Or.inr (Or.inr
                ⟨st, dec, heq, (Option.some.injEq _ _ ▸ h).symm⟩))))

/-! ### Sorted-list helpers -/

theorem is_safe_iff (a w : List Int) :
    is_safe_to_decode a w = true ↔ 6 ≤ a.length := by
  unfold is_safe_to_decode SIZECEPH_ACTUAL_MIN_OSDS SIZECEPH_ACTUAL_K
  split
  · rename_i h1
    simp only [Bool.false_eq_true, false_iff]
    omega
  · rename_i h1
    split
    · rename_i h2
      exact absurd h2 (by omega)
    · simp only [true_iff]
      omega

theorem sorted_bounded_length_le :
    ∀ (l : List Int) (a b : Int), l.Pairwise (· < ·) →
      (∀ i ∈ l, a ≤ i ∧ i < b) → l.length ≤ (b - a).toNat := by
  intro l
  induction l with
  | nil => intro a b _ _; simp
  | cons x xs ih =>
    intro a b hp hb
    have hx := hb x (List.mem_cons_self _ _)
    have hgt := (List.pairwise_cons.mp hp).1
    have hxs := ih (x + 1) b (List.pairwise_cons.mp hp).2
      (fun i hi => ⟨by have := hgt i hi; omega, (hb i (List.mem_cons_of_mem _ hi)).2⟩)
    simp only [List.length_cons]
    omega

theorem sorted_bounded_eq_range :
    ∀ (n : Nat) (l : List Int) (a : Int), l.Pairwise (· < ·) →
      (∀ i ∈ l, a ≤ i ∧ i < a + n) → l.length = n →
      l = intRangeList a n := by
  intro n
  induction n with
  | zero =>
    intro l a _ _ hlen
    simpa [intRangeList] using List.length_eq_zero.mp hlen
  | succ m ih =>
    intro l a hp hb hlen
    cases l with
    | nil => simp at hlen
    | cons x xs =>
      have hx := hb x (List.mem_cons_self _ _)
      have hgt := (List.pairwise_cons.mp hp).1
      have hxtail := (List.pairwise_cons.mp hp).2
      have hlen' : xs.length = m := by simpa using hlen
      have hxa : x = a := by
        by_contra hne
        have hbound := sorted_bounded_length_le xs (x + 1) (a + (m + 1 : Nat)) hxtail
          (fun i hi => ⟨by have := hgt i hi; omega,
            (hb i (List.mem_cons_of_mem _ hi)).2⟩)
        have hx1 := hx.1
        have hx2 := hx.2
        push_cast at hbound hx2
        omega
      subst hxa
      have hxs := ih xs (x + 1) hxtail
        (fun i hi => ⟨by have := hgt i hi; omega,
          by have h2 := (hb i (List.mem_cons_of_mem _ hi)).2; push_cast at h2 ⊢; omega⟩)
        hlen'
      simp [intRangeList, hxs]

/-! ### Claim theorems -/

/-- Claim C1: if the key set of `available_chunks_map` has fewer than
`min_shards_for_decode` (6) elements, `decode` fails with `-EIO`, the codec
is never invoked and no entry is produced; with at least 6 keys the
availability gate accepts regardless of which identifiers are present. -/
theorem decode_availability_gate (codec : Codec) (want : List Int)
    (chunks : List (Int × ByteBuf)) (declared : Int) :
    ((availableOf chunks).length < 6 →
      decode codec want chunks declared = some ⟨-5, [], []⟩) ∧
    (6 ≤ (availableOf chunks).length →
      is_safe_to_decode (availableOf chunks) want = true) := by
  constructor
  · intro h
    have hg : is_safe_to_decode (availableOf chunks) want = false := by
      rw [Bool.eq_false_iff, Ne, is_safe_iff]
      omega
    simp [decode, hg]
  · intro h
    rw [is_safe_iff]
    exact h

/-- Witness for C1 at a concrete input: a two-chunk map is rejected with
`-EIO` and empty output, and a six-shard set passes the gate. -/
theorem decode_availability_gate_witness :
    decode testCodec [0] [(0, testBuf), (1, testBuf)] 4 = some ⟨-5, [], []⟩ ∧
    is_safe_to_decode (availableOf testChunks) [0] = true :=
  ⟨(decode_availability_gate testCodec [0] [(0, testBuf), (1, testBuf)] 4).1 (by decide),
   (decode_availability_gate testCodec [0] testChunks 4).2 (by decide)⟩

/-- Claim C3: `get_chunk_size w` is at least `w / 4` (so `4 *` it covers `w`),
`4 * get_chunk_size w` is a multiple of 16, it is the least such value, and
width 0 maps to chunk size 0. -/
theorem get_chunk_size_spec (w : Nat) :
    w ≤ 4 * get_chunk_size w ∧
    16 ∣ 4 * get_chunk_size w ∧
    (∀ v, w ≤ 4 * v → 16 ∣ 4 * v → get_chunk_size w ≤ v) ∧
    get_chunk_size 0 = 0 := by
  refine ⟨?_, ?_, ?_, by decide⟩
  · rw [get_chunk_size_four_mul]
    unfold round_up_to
    split <;> omega
  · rw [get_chunk_size_four_mul]
    unfold round_up_to
    split <;> omega
  · intro v h1 h2
    have h4 := get_chunk_size_four_mul w
    unfold round_up_to at h4
    split at h4 <;> omega

/-- Witness for C3 at `w = 10`: the padded chunk size is at least `10/4` and
minimality holds against the candidate `v = 4`. -/
theorem get_chunk_size_spec_witness :
    10 ≤ 4 * get_chunk_size 10 ∧ get_chunk_size 10 ≤ 4 :=
  ⟨(get_chunk_size_spec 10).1, (get_chunk_size_spec 10).2.2.1 4 (by decide) (by decide)⟩

/-- Claim C4: with at least 6 available shards, `minimum_to_decode` succeeds
and returns the 6 smallest identifiers of `available` in ascending order,
independently of `want_to_read`. -/
theorem minimum_to_decode_spec (want avail : List Int)
    (hsort : avail.Pairwise (· < ·)) (hlen : 6 ≤ avail.length) :
    minimum_to_decode want avail = Except.ok (avail.take 6) ∧
    (avail.take 6).length = 6 ∧
    (avail.take 6).Pairwise (· < ·) ∧
    (∀ x ∈ avail.take 6, x ∈ avail) ∧
    (∀ x ∈ avail.take 6, ∀ y ∈ avail, y ∉ avail.take 6 → x < y) ∧
    (∀ want2, minimum_to_decode want2 avail = minimum_to_decode want avail) := by
  have hsplit := List.take_append_drop 6 avail
  have hpw : (avail.take 6 ++ avail.drop 6).Pairwise (· < ·) := by
    rw [hsplit]
    exact hsort
  obtain ⟨htake, hdrop, hcross⟩ := List.pairwise_append.mp hpw
  refine ⟨?_, ?_, htake, fun x hx => List.take_subset 6 avail hx, ?_, fun want2 => rfl⟩
  · unfold minimum_to_decode SIZECEPH_ACTUAL_MIN_OSDS
    rw [if_neg (by omega)]
  · rw [List.length_take]
    omega
  · intro x hx y hy hyn
    have hy' : y ∈ avail.take 6 ++ avail.drop 6 := by
      rw [hsplit]
      exact hy
    rcases List.mem_append.mp hy' with h1 | h2
    · exact absurd h1 hyn
    · exact hcross x hx y h2

/-- Witness for C4: the spec's concrete scenario,
`minimum_to_decode(want={0}, available={0,…,6}) = {0,…,5}`. -/
theorem minimum_to_decode_spec_witness :
    minimum_to_decode [0] [0, 1, 2, 3, 4, 5, 6] = Except.ok [0, 1, 2, 3, 4, 5] := by
  have h := (minimum_to_decode_spec [0] [0, 1, 2, 3, 4, 5, 6] (by decide) (by decide)).1
  simpa using h

/-- Claim C6: an encode request that is not the full shard set (wrong
cardinality or an out-of-range identifier) fails with `-EINVAL` before
`size_split` is invoked and with no output entries, and a request of 9
distinct in-range identifiers is necessarily the full set `{0,…,8}` and
passes validation. -/
theorem encode_request_validation (codec : Codec) (want : List Int) (inbuf : ByteBuf) :
    (¬ (want.length = 9 ∧ ∀ id ∈ want, 0 ≤ id ∧ id < 9) →
      encode codec want inbuf = ⟨-22, [], []⟩) ∧
    (encodeValidate want = true ↔ (want.length = 9 ∧ ∀ id ∈ want, 0 ≤ id ∧ id < 9)) ∧
    (want.Pairwise (· < ·) → want.length = 9 → (∀ id ∈ want, 0 ≤ id ∧ id < 9) →
      want = [0, 1, 2, 3, 4, 5, 6, 7, 8]) := by
  refine ⟨?_, ?_, ?_⟩
  · intro hne
    unfold encode SIZECEPH_ACTUAL_N
    by_cases h9 : want.length = 9
    · rw [if_neg (by omega)]
      have hr : ¬ ∀ id ∈ want, 0 ≤ id ∧ id < 9 := by tauto
      rw [if_pos hr]
    · rw [if_pos h9]
  · unfold encodeValidate SIZECEPH_ACTUAL_N
    simp [List.all_eq_true]
  · intro hp h9 hr
    have h := sorted_bounded_eq_range 9 want 0 hp
      (fun i hi => by have := hr i hi; exact ⟨this.1, by push_cast; omega⟩) h9
    rw [h]
    rfl

/-- Witness for C6: a one-element request fails with `-EINVAL`, and the
sorted in-range 9-element request is the full set. -/
theorem encode_request_validation_witness :
    encode testCodec [0] testBuf = ⟨-22, [], []⟩ ∧
    ([0, 1, 2, 3, 4, 5, 6, 7, 8] : List Int) = [0, 1, 2, 3, 4, 5, 6, 7, 8] :=
  ⟨(encode_request_validation testCodec [0] testBuf).1 (by decide),
   (encode_request_validation testCodec [0, 1, 2, 3, 4, 5, 6, 7, 8] testBuf).2.2
     (by decide) (by decide) (by decide)⟩

/-! ### Slice evaluation helpers -/

theorem dataSlice_eval (buf : ByteBuf) (cs i : Nat)
    (hbuf : buf.length = 4 * cs) (hdvd : 4 ∣ cs) (hlt : 4 * cs < 2 ^ 32) (hi : i < 4) :
    dataSlice buf (4 * cs) i = some (sliceAt buf cs i) := by
  have hper : get_chunk_size (4 * cs) = cs := by
    rw [get_chunk_size_of_aligned _ (by omega)]
    omega
  have hU : U32 = 2 ^ 32 := rfl
  have hK : SIZECEPH_ACTUAL_K = 4 := rfl
  unfold dataSlice
  rw [hper, hU, hK]
  have hlen : (if i = 4 - 1 then (4 * cs + 2 ^ 32 - i * cs) % 2 ^ 32 else cs) = cs := by
    split
    · rename_i h3
      subst h3
      omega
    · rfl
  rw [hlen]
  unfold substr_of sliceAt
  rw [if_pos ?_]
  calc i * cs + cs = (i + 1) * cs := by ring
  _ ≤ 4 * cs := Nat.mul_le_mul_right cs (by omega)
  _ = buf.length := hbuf.symm

theorem sliceAt_length (buf : ByteBuf) (cs i : Nat)
    (hbuf : buf.length = 4 * cs) (hi : i < 4) :
    (sliceAt buf cs i).length = cs := by
  unfold sliceAt
  rw [List.length_take, List.length_drop, hbuf]
  have h1 : i * cs + cs ≤ 4 * cs := by
    calc i * cs + cs = (i + 1) * cs := by ring
    _ ≤ 4 * cs := Nat.mul_le_mul_right cs (by omega)
  omega

theorem four_slices_concat (buf : ByteBuf) (cs : Nat) (hbuf : buf.length = 4 * cs) :
    sliceAt buf cs 0 ++ (sliceAt buf cs 1 ++ (sliceAt buf cs 2 ++ sliceAt buf cs 3)) = buf := by
  have e0 : sliceAt buf cs 0 = List.take cs buf := by simp [sliceAt]
  have e1 : sliceAt buf cs 1 = List.take cs (List.drop cs buf) := by simp [sliceAt]
  have e2 : sliceAt buf cs 2 = List.take cs (List.drop (2 * cs) buf) := rfl
  have e3 : sliceAt buf cs 3 = List.drop (3 * cs) buf := by
    refine List.take_of_length_le ?_
    rw [List.length_drop, hbuf]
    omega
  have d2 : List.drop (3 * cs) buf = List.drop cs (List.drop (2 * cs) buf) := by
    rw [List.drop_drop]
    congr 1
    ring
  have d1 : List.drop (2 * cs) buf = List.drop cs (List.drop cs buf) := by
    rw [List.drop_drop]
    congr 1
    ring
  rw [e0, e1, e2, e3, d2, d1,
    List.take_append_drop cs (List.drop cs (List.drop cs buf)),
    List.take_append_drop cs (List.drop cs buf),
    List.take_append_drop cs buf]

theorem reconcile_0123 (buf : ByteBuf) (cs : Nat)
    (hbuf : buf.length = 4 * cs) (hdvd : 4 ∣ cs) (hlt : 4 * cs < 2 ^ 32) :
    reconcile buf (4 * cs) [0, 1, 2, 3] [] =
      some (0, [((0 : Int), sliceAt buf cs 0), (1, sliceAt buf cs 1),
                (2, sliceAt buf cs 2), (3, sliceAt buf cs 3)]) := by
  have h0 : dataSlice buf (4 * cs) (Int.toNat 0) = some (sliceAt buf cs 0) :=
    dataSlice_eval buf cs 0 hbuf hdvd hlt (by omega)
  have h1 : dataSlice buf (4 * cs) (Int.toNat 1) = some (sliceAt buf cs 1) :=
    dataSlice_eval buf cs 1 hbuf hdvd hlt (by omega)
  have h2 : dataSlice buf (4 * cs) (Int.toNat 2) = some (sliceAt buf cs 2) :=
    dataSlice_eval buf cs 2 hbuf hdvd hlt (by omega)
  have h3 : dataSlice buf (4 * cs) (Int.toNat 3) = some (sliceAt buf cs 3) :=
    dataSlice_eval buf cs 3 hbuf hdvd hlt (by omega)
  have g0 : dataSlice buf (4 * cs) 0 = some (sliceAt buf cs 0) := h0
  have g1 : dataSlice buf (4 * cs) 1 = some (sliceAt buf cs 1) := h1
  have g2 : dataSlice buf (4 * cs) 2 = some (sliceAt buf cs 2) := h2
  have g3 : dataSlice buf (4 * cs) 3 = some (sliceAt buf cs 3) := h3
  norm_num [reconcile, h0, h1, h2, h3, g0, g1, g2, g3]

/-- On a successful decode, the output keys are exactly the requested
data-role identifiers, in request order. -/
theorem decode_success_keys (codec : Codec) (want : List Int)
    (chunks : List (Int × ByteBuf)) (declared : Int) (r : DecodeResult)
    (hdec : decode codec want chunks declared = some r) (h0 : r.status = 0) :
    r.decoded.map Prod.fst = want.filter (fun i => decide (0 ≤ i) && decide (i < 4)) := by
  rcases decode_branches codec want chunks declared r hdec with
    h | h | h | h | h | ⟨st, dec, hrec, hr⟩
  · subst h; simp at h0
  · subst h; simp at h0
  · rw [h.1] at h0; simp at h0
  · subst h; simp at h0
  · subst h; simp at h0
  · subst hr
    simp only at h0
    subst h0
    simpa using reconcile_keys _ _ want [] dec hrec

/-- Claim C2: on every successful decode the result map has entries exactly
for the requested data-role identifiers (in request order); no requested
coding-role identifier `[4, 9)` ever receives an entry, and its omission is
not an error. -/
theorem decode_coding_role_omitted (codec : Codec) (want : List Int)
    (chunks : List (Int × ByteBuf)) (declared : Int) (r : DecodeResult)
    (hdec : decode codec want chunks declared = some r) (h0 : r.status = 0) :
    r.decoded.map Prod.fst = want.filter (fun i => decide (0 ≤ i) && decide (i < 4)) ∧
    (∀ i ∈ want, 4 ≤ i → ∀ b, (i, b) ∉ r.decoded) ∧
    (∀ i b, (i, b) ∈ r.decoded → i ∈ want ∧ 0 ≤ i ∧ i < 4) := by
  have hkeys := decode_success_keys codec want chunks declared r hdec h0
  refine ⟨hkeys, ?_, ?_⟩
  · intro i hi hi4 b hib
    have hm : i ∈ r.decoded.map Prod.fst := List.mem_map_of_mem Prod.fst hib
    rw [hkeys] at hm
    have h := List.mem_filter.mp hm
    simp only [Bool.and_eq_true, decide_eq_true_eq] at h
    omega
  · intro i b hib
    have hm : i ∈ r.decoded.map Prod.fst := List.mem_map_of_mem Prod.fst hib
    rw [hkeys] at hm
    have h := List.mem_filter.mp hm
    simp only [Bool.and_eq_true, decide_eq_true_eq] at h
    exact ⟨h.1, h.2.1, h.2.2⟩

/-- Witness for C2: a successful decode requesting `{0,1,2,3,4}` yields
entries exactly for the data-role identifiers `0,1,2,3`. -/
theorem decode_coding_role_omitted_witness :
    ([((0 : Int), ([0, 1, 2, 3] : ByteBuf)), (1, [4, 5, 6, 7]), (2, [8, 9, 10, 11]),
        (3, [12, 13, 14, 15])].map Prod.fst) =
      ([0, 1, 2, 3, 4] : List Int).filter (fun i => decide (0 ≤ i) && decide (i < 4)) :=
  (decode_coding_role_omitted testCodec [0, 1, 2, 3, 4] testChunks 4
    ⟨0, [(0, [0, 1, 2, 3]), (1, [4, 5, 6, 7]), (2, [8, 9, 10, 11]), (3, [12, 13, 14, 15])],
      [CodecCall.canRestoreCall, CodecCall.restoreCall]⟩
    (by decide) rfl).1

/-- Claim C5: on a successful decode whose effective chunk size `cs` came
from `get_chunk_size`, every returned entry is the `cs`-byte slice of the
recovered buffer at offset `id * cs`; requesting `{0,1,2,3}` yields four
`cs`-byte slices whose concatenation is the whole `4 * cs`-byte recovered
buffer. -/
theorem decode_data_slice_spec (codec : Codec) (want : List Int)
    (chunks : List (Int × ByteBuf)) (declared : Int) (w : Nat) (r : DecodeResult)
    (cs : Nat) (R : ByteBuf)
    (hcs0 : cs = effectiveChunkSize chunks declared)
    (hR : R = recoveredBuffer codec (assembleInputs chunks) (originalDataSize chunks declared))
    (hcs : effectiveChunkSize chunks declared = get_chunk_size w)
    (hlt : 4 * get_chunk_size w < 2 ^ 32)
    (hdec : decode codec want chunks declared = some r)
    (h0 : r.status = 0) :
    originalDataSize chunks declared = 4 * cs ∧
    get_chunk_size (originalDataSize chunks declared) = cs ∧
    R.length = 4 * cs ∧
    (∀ i b, (i, b) ∈ r.decoded → b = sliceAt R cs i.toNat ∧ b.length = cs) ∧
    (want = [0, 1, 2, 3] →
      r.decoded = [((0 : Int), sliceAt R cs 0), (1, sliceAt R cs 1),
        (2, sliceAt R cs 2), (3, sliceAt R cs 3)] ∧
      sliceAt R cs 0 ++ (sliceAt R cs 1 ++ (sliceAt R cs 2 ++ sliceAt R cs 3)) = R) := by
  subst hcs0
  have hdvd : 4 ∣ effectiveChunkSize chunks declared := hcs ▸ get_chunk_size_dvd_four w
  have hltE : 4 * effectiveChunkSize chunks declared < 2 ^ 32 := by
    rw [hcs]
    exact hlt
  have hods : originalDataSize chunks declared = 4 * effectiveChunkSize chunks declared := by
    unfold originalDataSize U32 SIZECEPH_ACTUAL_K
    omega
  have hgcs : get_chunk_size (originalDataSize chunks declared) =
      effectiveChunkSize chunks declared := by
    rw [hods, get_chunk_size_of_aligned _ (by omega)]
    omega
  have hRlen : R.length = 4 * effectiveChunkSize chunks declared := by
    rw [hR]
    simp [recoveredBuffer, hods]
  rcases decode_branches codec want chunks declared r hdec with
    h | h | h | h | h | ⟨st, dec, hrec, hr⟩
  · subst h; simp at h0
  · subst h; simp at h0
  · rw [h.1] at h0; simp at h0
  · subst h; simp at h0
  · subst h; simp at h0
  · subst hr
    simp only at h0
    subst h0
    rw [← hR, hods] at hrec
    refine ⟨hods, hgcs, hRlen, ?_, ?_⟩
    · intro i b hib
      rcases reconcile_mem _ _ want [] 0 dec hrec (i, b) hib with habs | ⟨hiw, hi0, hi4, hds⟩
      · simp at habs
      · have hev := dataSlice_eval R
          (effectiveChunkSize chunks declared) i.toNat hRlen hdvd hltE (by omega)
        rw [hev] at hds
        have hb : b = sliceAt R (effectiveChunkSize chunks declared) i.toNat := by
          injection hds with h
          exact h.symm
        refine ⟨hb, ?_⟩
        rw [hb]
        exact sliceAt_length _ _ _ hRlen (by omega)
    · intro hw
      subst hw
      rw [reconcile_0123 _ _ hRlen hdvd hltE] at hrec
      have hdec' : dec = [((0 : Int), sliceAt R (effectiveChunkSize chunks declared) 0),
          (1, sliceAt R (effectiveChunkSize chunks declared) 1),
          (2, sliceAt R (effectiveChunkSize chunks declared) 2),
          (3, sliceAt R (effectiveChunkSize chunks declared) 3)] := by
        have h := (Option.some.injEq _ _ ▸ hrec)
        exact (Prod.mk.injEq _ _ _ _ ▸ h).2.symm
      exact ⟨hdec', four_slices_concat _ _ hRlen⟩

/-- Witness for C5: with six 4-byte chunks and `declared_chunk_size = 4`
(`= get_chunk_size 16`), the four returned slices concatenate to the whole
recovered buffer. -/
theorem decode_data_slice_spec_witness :
    sliceAt (recoveredBuffer testCodec (assembleInputs testChunks)
        (originalDataSize testChunks 4)) 4 0 ++
      (sliceAt (recoveredBuffer testCodec (assembleInputs testChunks)
          (originalDataSize testChunks 4)) 4 1 ++
        (sliceAt (recoveredBuffer testCodec (assembleInputs testChunks)
            (originalDataSize testChunks 4)) 4 2 ++
          sliceAt (recoveredBuffer testCodec (assembleInputs testChunks)
              (originalDataSize testChunks 4)) 4 3)) =
      recoveredBuffer testCodec (assembleInputs testChunks) (originalDataSize testChunks 4) :=
  ((decode_data_slice_spec testCodec [0, 1, 2, 3] testChunks 4 16
      ⟨0, [(0, [0, 1, 2, 3]), (1, [4, 5, 6, 7]), (2, [8, 9, 10, 11]), (3, [12, 13, 14, 15])],
        [CodecCall.canRestoreCall, CodecCall.restoreCall]⟩
      4 (recoveredBuffer testCodec (assembleInputs testChunks) (originalDataSize testChunks 4))
      (by decide) rfl (by decide) (by decide) (by decide) rfl).2.2.2.2 rfl).2

/-- Claim C7 (code-bug evidence): the chunk-size-resolution slip.  With the
same six-chunk map of 4-byte chunks, a declared chunk size of `0` is inferred
from a present chunk (`4`), but a declared chunk size of `-1` is converted to
the `unsigned int` value `4294967295` — it is neither inferred from a present
chunk nor rejected as zero, contradicting "zero or negative ⇒ infer". -/
theorem effectiveChunkSize_negative_not_inferred :
    effectiveChunkSize testChunks (-1) = 4294967295 ∧
    effectiveChunkSize testChunks 0 = inferredChunkSize testChunks ∧
    inferredChunkSize testChunks = 4 := by
  decide

/-- Claim C10: when a decode fails with `-EINVAL` because the sorted request
contains an identifier `≥ 9` (all requested identifiers non-negative, chunk
size resolved), the codec's restore has already run and the output map
already holds an entry for every requested data-role identifier. -/
theorem decode_invalid_id_not_atomic (codec : Codec) (want : List Int)
    (chunks : List (Int × ByteBuf)) (declared : Int) (r : DecodeResult)
    (hsort : want.Pairwise (· < ·))
    (hnn : ∀ i ∈ want, 0 ≤ i)
    (he : effectiveChunkSize chunks declared ≠ 0)
    (hdec : decode codec want chunks declared = some r)
    (hst : r.status = -22) :
    (∃ i ∈ want, 9 ≤ i) ∧
    CodecCall.restoreCall ∈ r.calls ∧
    (∀ i ∈ want, i < 4 → ∃ b, (i, b) ∈ r.decoded) := by
  rcases decode_branches codec want chunks declared r hdec with
    h | h | h | h | h | ⟨st, dec, hrec, hr⟩
  · subst h; simp at hst
  · subst h; simp at hst
  · exact absurd h.2 he
  · subst h; simp at hst
  · subst h; simp at hst
  · subst hr
    simp only at hst
    subst hst
    refine ⟨?_, by simp, ?_⟩
    · obtain ⟨i, hi, hni⟩ := reconcile_err_mem _ _ want [] dec hrec
      have := hnn i hi
      exact ⟨i, hi, by omega⟩
    · exact reconcile_err_data_entries _ _ want [] dec hsort hnn hrec

/-- Witness for C10: requesting `{0,1,2,3,10}` over six available chunks
fails with `-EINVAL`, yet the requested set does contain an identifier
`≥ 9`. -/
theorem decode_invalid_id_not_atomic_witness :
    ∃ i ∈ ([0, 1, 2, 3, 10] : List Int), 9 ≤ i :=
  (decode_invalid_id_not_atomic testCodec [0, 1, 2, 3, 10] testChunks 4
    ⟨-22, [(0, [0, 1, 2, 3]), (1, [4, 5, 6, 7]), (2, [8, 9, 10, 11]), (3, [12, 13, 14, 15])],
      [CodecCall.canRestoreCall, CodecCall.restoreCall]⟩
    (by decide) (by decide) (by decide) (by decide) rfl).1

/-- A slot of the assembled codec input is populated exactly when its index
is a key of the chunks map. -/
theorem assembleInputs_isSome_eq (chunks : List (Int × ByteBuf)) (i : Nat) :
    ((chunks.find? (fun p => p.1 == (i : Int))).map Prod.snd).isSome
      = decide ((i : Int) ∈ chunks.map Prod.fst) := by
  rw [Option.isSome_map']
  cases hf : chunks.find? (fun p => p.1 == (i : Int)) with
  | none =>
    have hnone := List.find?_eq_none.mp hf
    simp only [Option.isSome_none]
    symm
    simp only [decide_eq_false_iff_not]
    intro hmem
    obtain ⟨x, hx, hx1⟩ := List.mem_map.mp hmem
    exact absurd (by simp [hx1]) (hnone x hx)
  | some x =>
    have hpx := List.find?_some hf
    have hmem := List.mem_of_find?_eq_some hf
    simp only [Option.isSome_some]
    symm
    simp only [decide_eq_true_eq]
    have hx1 : x.1 = (i : Int) := by simpa using hpx
    rw [← hx1]
    exact List.mem_map_of_mem Prod.fst hmem

/-- Claim C9: the availability gate counts every key of the chunks map,
including out-of-range ones, while input assembly silently drops chunks keyed
outside `[0, 9)`; so a map with ≥ 6 keys, one of them out of range, passes
the gate yet presents strictly fewer chunks to the codec than were counted. -/
theorem decode_gate_counts_out_of_range (want : List Int)
    (chunks : List (Int × ByteBuf)) (k0 : Int)
    (hnd : (chunks.map Prod.fst).Nodup)
    (hlen : 6 ≤ (chunks.map Prod.fst).length)
    (hk0 : k0 ∈ chunks.map Prod.fst)
    (hout : ¬ (0 ≤ k0 ∧ k0 < 9)) :
    is_safe_to_decode (availableOf chunks) want = true ∧
    (assembleInputs chunks).countP (fun o => o.isSome) < (availableOf chunks).length := by
  have hself : availableOf chunks = chunks.map Prod.fst := by
    unfold availableOf
    exact List.dedup_eq_self.mpr hnd
  constructor
  · rw [is_safe_iff, hself]
    exact hlen
  · rw [hself]
    have hc : (assembleInputs chunks).countP (fun o => o.isSome)
        = (List.range 9).countP (fun i : Nat => decide ((i : Int) ∈ chunks.map Prod.fst)) := by
      unfold assembleInputs SIZECEPH_ACTUAL_N
      rw [List.countP_map]
      refine List.countP_congr ?_
      intro a _
      rw [Function.comp_apply, assembleInputs_isSome_eq chunks a]
    rw [hc, List.countP_eq_length_filter]
    set l9 := (List.range 9).filter (fun i : Nat => decide ((i : Int) ∈ chunks.map Prod.fst))
      with hl9def
    have hmem : ∀ n ∈ l9, (n : Int) ∈ chunks.map Prod.fst ∧ n < 9 := by
      intro n hn
      rw [hl9def] at hn
      have h := List.mem_filter.mp hn
      exact ⟨of_decide_eq_true h.2, List.mem_range.mp h.1⟩
    have hnodup9 : l9.Nodup := by
      rw [hl9def]
      exact (List.nodup_range 9).filter _
    have hinj : Function.Injective (fun n : Nat => (n : Int)) :=
      fun a b hab => Nat.cast_injective hab
    have hsub : l9.map (fun n : Nat => (n : Int)) ⊆ (chunks.map Prod.fst).erase k0 := by
      intro x hx
      obtain ⟨n, hn, rfl⟩ := List.mem_map.mp hx
      obtain ⟨hk, hlt9⟩ := hmem n hn
      refine (List.Nodup.mem_erase_iff hnd).mpr ⟨?_, hk⟩
      intro heq
      apply hout
      rw [← heq]
      exact ⟨Int.natCast_nonneg n, by exact_mod_cast hlt9⟩
    have hle := (List.subperm_of_subset (hnodup9.map hinj) hsub).length_le
    rw [List.length_map, List.length_erase_of_mem hk0] at hle
    omega

/-- Witness for C9: six keys `{0,1,2,3,4,20}` pass the gate (cardinality 6)
but only five slots of the codec input array are populated. -/
theorem decode_gate_counts_out_of_range_witness :
    is_safe_to_decode (availableOf [((0 : Int), testBuf), (1, testBuf), (2, testBuf),
        (3, testBuf), (4, testBuf), (20, testBuf)]) [0] = true ∧
    (assembleInputs [((0 : Int), testBuf), (1, testBuf), (2, testBuf),
        (3, testBuf), (4, testBuf), (20, testBuf)]).countP (fun o => o.isSome) <
      (availableOf [((0 : Int), testBuf), (1, testBuf), (2, testBuf),
        (3, testBuf), (4, testBuf), (20, testBuf)]).length :=
  decode_gate_counts_out_of_range [0]
    [((0 : Int), testBuf), (1, testBuf), (2, testBuf), (3, testBuf), (4, testBuf), (20, testBuf)]
    20 (by decide) (by decide) (by decide) (by decide)

/-- The concatenation loop of `decode_concat` equals per-shard blocks
flattened in request order. -/
theorem concatLoop_flatten (decoded : List (Int × ByteBuf)) (cs : Nat) :
    ∀ (want : List Int) (acc : ByteBuf),
      concatLoop decoded cs want acc =
        acc ++ (want.map (fun id =>
          match decoded.find? (fun p => p.1 == id) with
          | some p => p.2
          | none => zeroBuf cs)).flatten := by
  intro want
  induction want with
  | nil =>
    intro acc
    simp [concatLoop]
  | cons id rest ih =>
    intro acc
    simp only [concatLoop]
    split
    · rename_i p hp
      rw [ih]
      simp [hp]
    · rename_i hp
      rw [ih]
      simp [hp]

/-- Claim C8: on a successful `decode_concat`, the output buffer is the
request-order concatenation of each requested shard's decoded chunk, with a
zero-filled buffer of the inferred chunk size substituted for any shard the
decode step did not supply — in particular for every requested coding-role
identifier. -/
theorem decode_concat_spec (codec : Codec) (want : List Int)
    (chunks : List (Int × ByteBuf)) (buf : ByteBuf)
    (h : decode_concat codec want chunks = some (0, buf)) :
    ∃ r, decode codec want chunks ((inferredChunkSize chunks : Nat) : Int) = some r ∧
      r.status = 0 ∧
      buf = (want.map (fun id =>
        match r.decoded.find? (fun p => p.1 == id) with
        | some p => p.2
        | none => zeroBuf (inferredChunkSize chunks))).flatten ∧
      (∀ id ∈ want, 4 ≤ id → r.decoded.find? (fun p => p.1 == id) = none) := by
  unfold decode_concat at h
  split at h
  · exact absurd h (by simp)
  · rename_i r hr
    split at h
    · rename_i h0
      simp only [Option.some.injEq, Prod.mk.injEq] at h
      refine ⟨r, hr, h0, ?_, ?_⟩
      · rw [← h.2, concatLoop_flatten]
        simp
      · intro id hid hid4
        have hkeys := decode_success_keys codec want chunks _ r hr h0
        rw [List.find?_eq_none]
        intro x hx hpx
        have hx1 : x.1 = id := by simpa using hpx
        have hm : x.1 ∈ r.decoded.map Prod.fst := List.mem_map_of_mem Prod.fst hx
        rw [hkeys] at hm
        have hf := List.mem_filter.mp hm
        simp only [Bool.and_eq_true, decide_eq_true_eq] at hf
        omega
    · rename_i h0
      simp only [Option.some.injEq, Prod.mk.injEq] at h
      exact absurd h.1 h0

/-- Witness for C8: requesting `{0,1,2,3,4}` over six 4-byte chunks yields
the 16 recovered data bytes followed by a 4-byte zero block for the
unsupplied coding shard `4`. -/
theorem decode_concat_spec_witness :
    ∃ r, decode testCodec [0, 1, 2, 3, 4] testChunks
        ((inferredChunkSize testChunks : Nat) : Int) = some r ∧
      r.status = 0 ∧
      ([0, 1, 2, 3, 4, 5, 6, 7, 8, 9, 10, 11, 12, 13, 14, 15, 0, 0, 0, 0] : ByteBuf) =
        (([0, 1, 2, 3, 4] : List Int).map (fun id =>
          match r.decoded.find? (fun p => p.1 == id) with
          | some p => p.2
          | none => zeroBuf (inferredChunkSize testChunks))).flatten ∧
      (∀ id ∈ ([0, 1, 2, 3, 4] : List Int), 4 ≤ id →
        r.decoded.find? (fun p => p.1 == id) = none) :=
  decode_concat_spec testCodec [0, 1, 2, 3, 4] testChunks
    [0, 1, 2, 3, 4, 5, 6, 7, 8, 9, 10, 11, 12, 13, 14, 15, 0, 0, 0, 0] (by decide)

end SizeCephActual
